import Mathlib

/-!
Verification of the minuit2-rs core against its specification.

The definitions below are shallow embeddings of the Rust source:
floating-point doubles are modelled as real numbers (or rationals where
only field operations occur), fallible operations return Option, and the
call-counting wrapper is modelled by explicit state passing.
-/

namespace Minuit

open Matrix (transpose)

open scoped Matrix

/-- A single minimization parameter, from src/src/parameter.rs
(struct MinuitParameter): value, error, const/fixed flags and the
optional bounds with their presence flags. -/
structure MinuitParam (α : Type) where
  value : α
  error : α
  isConst : Bool
  isFixed : Bool
  hasLowerLimit : Bool
  hasUpperLimit : Bool
  lowerLimit : α
  upperLimit : α
deriving Repr, DecidableEq

/-- MinuitParameter::has_limits from src/src/parameter.rs: both bound flags set. -/
def MinuitParam.hasLimits {α : Type} (p : MinuitParam α) : Bool :=
  p.hasLowerLimit && p.hasUpperLimit

/-- SinTransform::int2ext from src/src/transform/sin.rs:
lower + 0.5 * (upper - lower) * (sin value + 1). -/
noncomputable def sinInt2ext (value upper lower : ℝ) : ℝ :=
  lower + 0.5 * (upper - lower) * (Real.sin value + 1)

/-- SinTransform::ext2int from src/src/transform/sin.rs. Near a bound
(within distnn = 8 sqrt eps2 of it) the result is clamped to
plus or minus (pi/2 - distnn); otherwise it is arcsin of the affinely
rescaled value. -/
noncomputable def sinExt2int (value upper lower eps2 : ℝ) : ℝ :=
  let piby2 : ℝ := Real.pi / 2
  let distnn : ℝ := 8 * Real.sqrt eps2
  let vlimhi : ℝ := piby2 - distnn
  let vlimlo : ℝ := -piby2 + distnn
  let yy : ℝ := 2 * (value - lower) / (upper - lower) - 1
  let yy2 : ℝ := |yy|
  if 1 - distnn ≤ yy2 then
    if yy < 0 then vlimlo else vlimhi
  else
    Real.arcsin yy

/-- SqrtLowTransform::int2ext from src/src/transform/sqrt_low.rs:
lower - 1 + sqrt (value^2 + 1).  The upper limit argument is unused in
the source and omitted here. -/
noncomputable def sqrtLowInt2ext (value lower : ℝ) : ℝ :=
  lower - 1 + Real.sqrt (value * value + 1)

/-- SqrtLowTransform::ext2int from src/src/transform/sqrt_low.rs:
0 when (value - lower + 1)^2 - 1 falls below eps2, else its square root. -/
noncomputable def sqrtLowExt2int (value lower eps2 : ℝ) : ℝ :=
  let yy : ℝ := value - lower + 1
  let yy2 : ℝ := yy * yy - 1
  if yy2 < eps2 then 0 else Real.sqrt yy2

/-- SqrtUpTransform::int2ext from src/src/transform/sqrt_up.rs:
upper + 1 - sqrt (value^2 + 1). -/
noncomputable def sqrtUpInt2ext (value upper : ℝ) : ℝ :=
  upper + 1 - Real.sqrt (value * value + 1)

/-- SqrtUpTransform::ext2int from src/src/transform/sqrt_up.rs:
0 when (upper - value + 1)^2 - 1 falls below eps2, else its square root. -/
noncomputable def sqrtUpExt2int (value upper eps2 : ℝ) : ℝ :=
  let yy : ℝ := upper - value + 1
  let yy2 : ℝ := yy * yy - 1
  if yy2 < eps2 then 0 else Real.sqrt yy2

/-- MnUserTransformation::int2ext from src/src/user_transformation.rs:
dispatch on the bound flags of the parameter. -/
noncomputable def mnInt2ext (p : MinuitParam ℝ) (internal : ℝ) : ℝ :=
  if p.hasLimits then sinInt2ext internal p.upperLimit p.lowerLimit
  else if p.hasLowerLimit then sqrtLowInt2ext internal p.lowerLimit
  else if p.hasUpperLimit then sqrtUpInt2ext internal p.upperLimit
  else internal

/-- MnUserTransformation::ext2int from src/src/user_transformation.rs:
dispatch on the bound flags of the parameter, threading the machine
precision eps2. -/
noncomputable def mnExt2int (p : MinuitParam ℝ) (value eps2 : ℝ) : ℝ :=
  if p.hasLimits then sinExt2int value p.upperLimit p.lowerLimit eps2
  else if p.hasLowerLimit then sqrtLowExt2int value p.lowerLimit eps2
  else if p.hasUpperLimit then sqrtUpExt2int value p.upperLimit eps2
  else value

/-- The safe-margin condition of claim C1: the external value lies
strictly inside the bounds of the parameter, far enough from each bound
that ext2int does not clamp. -/
def safeInside (p : MinuitParam ℝ) (v eps2 : ℝ) : Prop :=
  if p.hasLimits then
    p.lowerLimit < p.upperLimit ∧
      |2 * (v - p.lowerLimit) / (p.upperLimit - p.lowerLimit) - 1| <
        1 - 8 * Real.sqrt eps2
  else if p.hasLowerLimit then
    p.lowerLimit < v ∧ eps2 ≤ (v - p.lowerLimit + 1) * (v - p.lowerLimit + 1) - 1
  else if p.hasUpperLimit then
    v < p.upperLimit ∧ eps2 ≤ (p.upperLimit - v + 1) * (p.upperLimit - v + 1) - 1
  else True

/-- A doubly bounded example parameter on the interval from 0 to 2. -/
noncomputable def paramC1 : MinuitParam ℝ :=
  { value := 1, error := 0.1, isConst := false, isFixed := false,
    hasLowerLimit := true, hasUpperLimit := true,
    lowerLimit := 0, upperLimit := 2 }

/-- MinuitParameter::set_limits from src/src/parameter.rs.  The source
asserts lower < upper; the assertion is modelled as returning none on
violation (fail fast), some of the updated parameter otherwise. -/
def setLimits (p : MinuitParam ℚ) (lower upper : ℚ) : Option (MinuitParam ℚ) :=
  if lower < upper then
    some { p with hasLowerLimit := true, hasUpperLimit := true,
                  lowerLimit := lower, upperLimit := upper }
  else
    none

/-- MinuitParameter::with_limits from src/src/parameter.rs: construction
of a doubly bounded parameter.  The source performs no check on the
bounds. -/
def withLimits (value error lower upper : ℚ) : MinuitParam ℚ :=
  { value := value, error := error, isConst := false, isFixed := false,
    hasLowerLimit := true, hasUpperLimit := true,
    lowerLimit := lower, upperLimit := upper }

/-- A free example parameter over the rationals. -/
def paramQ : MinuitParam ℚ :=
  { value := 1, error := 1/10, isConst := false, isFixed := false,
    hasLowerLimit := false, hasUpperLimit := false,
    lowerLimit := 0, upperLimit := 0 }

/-- MnCross from src/src/minos/cross.rs: crossing multiplier, validity
and outcome flags, and the call count.  The parameter state payload is
irrelevant to claim C5 and omitted. -/
structure MnCross where
  value : ℚ
  nfcn : ℕ
  valid : Bool
  isAtLimit : Bool
  isAtMaxFcn : Bool
  newMinimum : Bool
deriving Repr, DecidableEq

/-- MinosError from src/src/minos/minos_error.rs: parameter index,
parabolic (Hesse) error and the two crossing results. -/
structure MinosError where
  parameter : ℕ
  hesseError : ℚ
  lower : MnCross
  upper : MnCross
deriving Repr, DecidableEq

/-- MinosError::lower_error from src/src/minos/minos_error.rs. -/
def MinosError.lowerError (me : MinosError) : ℚ :=
  if me.lower.valid then -me.hesseError * (1 + me.lower.value) else -me.hesseError

/-- MinosError::upper_error from src/src/minos/minos_error.rs. -/
def MinosError.upperError (me : MinosError) : ℚ :=
  if me.upper.valid then me.hesseError * (1 + me.upper.value) else me.hesseError

/-- The three public entry points of the counted objective wrapper MnFcn
(src/src/mn_fcn.rs), as events of a call trace.  Arguments are in
internal space for callInternal and external space for the other two. -/
inductive MnFcnEntry where
  | callInternal (internal : List ℚ)
  | callTransformed (external : List ℚ)
  | callNoTrafo (external : List ℚ)
deriving Repr, DecidableEq

/-- MnFcn::call from src/src/mn_fcn.rs: increment the counter, transform
internal to external, evaluate the user function.  Returns the value and
the new counter. -/
def mnFcnCall (fcn : List ℚ → ℚ) (trafo : List ℚ → List ℚ)
    (numCalls : ℕ) (internal : List ℚ) : ℚ × ℕ :=
  (fcn (trafo internal), numCalls + 1)

/-- MnFcn::call_with_transformed_params from src/src/mn_fcn.rs:
increment the counter and evaluate the user function directly on
external parameters. -/
def mnFcnCallTransformed (fcn : List ℚ → ℚ)
    (numCalls : ℕ) (external : List ℚ) : ℚ × ℕ :=
  (fcn external, numCalls + 1)

/-- MnFcn::call_without_doing_trafo from src/src/mn_fcn.rs: delegates to
call_with_transformed_params. -/
def mnFcnCallNoTrafo (fcn : List ℚ → ℚ)
    (numCalls : ℕ) (external : List ℚ) : ℚ × ℕ :=
  mnFcnCallTransformed fcn numCalls external

/-- Run a sequence of evaluations through the wrapper, starting from
counter state c, returning the final counter (MnFcn::num_of_calls). -/
def mnFcnRun (fcn : List ℚ → ℚ) (trafo : List ℚ → List ℚ)
    (c : ℕ) : List MnFcnEntry → ℕ
  | [] => c
  | MnFcnEntry.callInternal xs :: rest =>
      mnFcnRun fcn trafo (mnFcnCall fcn trafo c xs).2 rest
  | MnFcnEntry.callTransformed xs :: rest =>
      mnFcnRun fcn trafo (mnFcnCallTransformed fcn c xs).2 rest
  | MnFcnEntry.callNoTrafo xs :: rest =>
      mnFcnRun fcn trafo (mnFcnCallNoTrafo fcn c xs).2 rest

/-- The validity-relevant part of MinimumParameters
(src/src/minimum/parameters.rs): function value and the valid flag.
Both constructors new and with_step set valid to true. -/
structure MinParamsObs where
  fval : ℚ
  valid : Bool
deriving Repr, DecidableEq

/-- MinimumParameters::new from src/src/minimum/parameters.rs: valid is
set to true. -/
def minimumParametersNew (fval : ℚ) : MinParamsObs :=
  { fval := fval, valid := true }

/-- MinimumState from src/src/minimum/state.rs, restricted to the fields
claim C2 reads: edm, nfcn, and its parameters record whose valid flag
defines MinimumState::is_valid. -/
structure MinState where
  params : MinParamsObs
  edm : ℚ
  nfcn : ℕ
deriving Repr, DecidableEq

/-- MinimumState::is_valid from src/src/minimum/state.rs: delegates to
the parameters record. -/
def MinState.isValid (st : MinState) : Bool := st.params.valid

/-- MinimumSeed from src/src/minimum/seed.rs: is_valid is copied from
state.is_valid at construction time. -/
structure MigradSeed where
  state : MinState
  isValid : Bool
deriving Repr, DecidableEq

/-- MinimumSeed::new from src/src/minimum/seed.rs. -/
def minimumSeedNew (st : MinState) : MigradSeed :=
  { state := st, isValid := st.isValid }

/-- FunctionMinimum from src/src/minimum/mod.rs, restricted to the
fields claim C2 reads: the seed state, the iteration history, Up and the
two outcome flags. -/
structure FunctionMin where
  seedState : MinState
  states : List MinState
  up : ℚ
  isAboveMaxEdm : Bool
  reachedCallLimit : Bool
deriving Repr, DecidableEq

/-- FunctionMinimum::new from src/src/minimum/mod.rs: both flags false. -/
def functionMinimumNew (seedState : MinState) (states : List MinState) (up : ℚ) :
    FunctionMin :=
  { seedState := seedState, states := states, up := up,
    isAboveMaxEdm := false, reachedCallLimit := false }

/-- FunctionMinimum::with_call_limit from src/src/minimum/mod.rs. -/
def functionMinimumCallLimit (seedState : MinState) (states : List MinState) (up : ℚ) :
    FunctionMin :=
  { seedState := seedState, states := states, up := up,
    isAboveMaxEdm := false, reachedCallLimit := true }

/-- FunctionMinimum::above_max_edm from src/src/minimum/mod.rs. -/
def functionMinimumAboveMaxEdm (seedState : MinState) (states : List MinState) (up : ℚ) :
    FunctionMin :=
  { seedState := seedState, states := states, up := up,
    isAboveMaxEdm := true, reachedCallLimit := false }

/-- FunctionMinimum::state from src/src/minimum/mod.rs: the last history
entry, falling back to the seed state. -/
def FunctionMin.finalState (m : FunctionMin) : MinState :=
  (m.states.getLast?).getD m.seedState

/-- FunctionMinimum::is_valid from src/src/minimum/mod.rs:
state().is_valid() and neither outcome flag set. -/
def FunctionMin.isValid (m : FunctionMin) : Bool :=
  m.finalState.isValid && !m.isAboveMaxEdm && !m.reachedCallLimit

/-- The outcome selection of VariableMetricMinimizer::minimize
(src/src/migrad/minimizer.rs lines 30-52), parameterised by the
observables of the run: the seed, the state history returned by
VariableMetricBuilder::minimum, and the total call count nfcn of the
counted objective after the builder ran.  edmval is tolerance*up*0.002
as computed in the source. -/
def migradMinimize (seed : MigradSeed) (statesBuilt : List MinState)
    (nfcn maxfcn : ℕ) (tolerance up : ℚ) : FunctionMin :=
  if !seed.isValid then functionMinimumNew seed.state [] up
  else
    let edmval : ℚ := tolerance * up * 0.002
    if nfcn ≥ maxfcn then functionMinimumCallLimit seed.state statesBuilt up
    else
      match statesBuilt.getLast? with
      | some last =>
          if last.edm > 10 * edmval then
            functionMinimumAboveMaxEdm seed.state statesBuilt up
          else functionMinimumNew seed.state statesBuilt up
      | none => functionMinimumNew seed.state statesBuilt up

/-- A concrete seed for the C2 witness, built through the source
constructors (so its validity flag is set by MinimumSeed::new). -/
def seedC2 : MigradSeed :=
  minimumSeedNew { params := minimumParametersNew 0, edm := 5, nfcn := 3 }

/-- A concrete history state for the C2 witness, with EDM 1. -/
def stateC2 : MinState :=
  { params := minimumParametersNew 1, edm := 1, nfcn := 10 }

/-- The contour refinement scale factor of MnContours::points
(src/src/contours/mod.rs lines 150-156): target = fmin + up; when
|f_mid - fmin| > 1e-15 the factor is sqrt(target / (f_mid - fmin)),
else 1. -/
noncomputable def contourScale (fmin up fMid : ℝ) : ℝ :=
  let target : ℝ := fmin + up
  if |fMid - fmin| > 1e-15 then Real.sqrt (target / (fMid - fmin)) else 1

/-- The projection factor stated by the specification for the contour
refinement: sqrt(Up / (f_mid - f_min)), falling back to 1 when f_mid is
numerically equal to f_min. -/
noncomputable def contourScaleSpec (fmin up fMid : ℝ) : ℝ :=
  if |fMid - fmin| > 1e-15 then Real.sqrt (up / (fMid - fmin)) else 1

/-- Model of an f64 objective value used to track finiteness through
arithmetic: a finite value, or one of the three non-finite classes. -/
inductive FVal where
  | fin (x : ℚ)
  | pinf
  | ninf
  | nan
deriving Repr, DecidableEq

/-- Whether the value models a finite double. -/
def FVal.isFinite : FVal → Bool
  | fin _ => true
  | _ => false

/-- IEEE negation. -/
def FVal.neg : FVal → FVal
  | fin x => fin (-x)
  | pinf => ninf
  | ninf => pinf
  | nan => nan

/-- IEEE addition on the finiteness classes. -/
def FVal.add : FVal → FVal → FVal
  | nan, _ => nan
  | _, nan => nan
  | fin x, fin y => fin (x + y)
  | fin _, pinf => pinf
  | fin _, ninf => ninf
  | pinf, fin _ => pinf
  | ninf, fin _ => ninf
  | pinf, pinf => pinf
  | ninf, ninf => ninf
  | pinf, ninf => nan
  | ninf, pinf => nan

/-- IEEE subtraction: a + (-b). -/
def FVal.sub (a b : FVal) : FVal := a.add b.neg

/-- IEEE multiplication by a strictly positive finite constant (the
source only multiplies objective values by 0.5 and 2.0 here). -/
def FVal.smulPos (c : ℚ) : FVal → FVal
  | fin x => fin (c * x)
  | pinf => pinf
  | ninf => ninf
  | nan => nan

/-- IEEE strict less-than: any comparison with NaN is false. -/
def FVal.flt : FVal → FVal → Bool
  | nan, _ => false
  | _, nan => false
  | fin x, fin y => decide (x < y)
  | fin _, pinf => true
  | fin _, ninf => false
  | pinf, _ => false
  | ninf, ninf => false
  | ninf, _ => true

/-- The sag combination of the Hesse diagonal pass
(src/src/hesse/calculator.rs line 108): sag = 0.5*(fp + fm - 2*amin),
where fp and fm are raw values returned by fcn.call with no intervening
transformation. -/
def hesseSag (fp fm amin : FVal) : FVal :=
  FVal.smulPos (1/2) (FVal.sub (FVal.add fp fm) (FVal.smulPos 2 amin))

/-- The first best-point selection of mn_linesearch
(src/src/linesearch.rs lines 38-43): f1 is the raw value returned by
fcn.call; it becomes the current best (fvmin, xvmin) when f1 < f0. -/
def linesearchBest (f0 : ℚ) (f1 : FVal) : FVal × ℚ :=
  if FVal.flt f1 (FVal.fin f0) then (f1, 1) else (FVal.fin f0, 0)

/-- The sentinel replacement asserted by the claim: a non-finite user
function value is replaced by a very large finite value before use. -/
def sentinelize (big : ℚ) (v : FVal) : FVal :=
  if v.isFinite then v else FVal.fin big

/-- Placeholder parameter used only as the getD default for list
indexing (the source indexes with plain slice indexing, which panics out
of range; both scan variants index identically). -/
def defaultParamQ : MinuitParam ℚ :=
  { value := 0, error := 0, isConst := false, isFixed := false,
    hasLowerLimit := false, hasUpperLimit := false,
    lowerLimit := 0, upperLimit := 0 }

/-- MnParameterScan from src/src/scan/mod.rs: the parameter container
(modelled by its list of parameters) and the current best function
value.  The user function is passed separately as an argument. -/
structure ParamScan where
  params : List (MinuitParam ℚ)
  fval : ℚ
deriving Repr, DecidableEq

/-- MnParameterScan::clamp_scan_bounds from src/src/scan/mod.rs. -/
def clampScanBounds (low high : ℚ) (hasLower : Bool) (lower : ℚ)
    (hasUpper : Bool) (upper : ℚ) : ℚ × ℚ :=
  (if hasLower then max low lower else low,
   if hasUpper then min high upper else high)

/-- MnParameterScan::setup_scan from src/src/scan/mod.rs: clamp the step
count to 2..=101, auto-range to value plus or minus 2*error when low and
high are numerically equal, clamp to the parameter bounds, and snapshot
all current parameter values. -/
def setupScan (s : ParamScan) (par nsteps : ℕ) (low high : ℚ) :
    ℕ × ℚ × ℚ × List ℚ :=
  let nsteps' : ℕ := min 101 (max 2 nsteps)
  let p := s.params.getD par defaultParamQ
  let val := p.value
  let err := p.error
  let lh : ℚ × ℚ :=
    if |low - high| < 1e-15 then
      clampScanBounds (val - 2 * err) (val + 2 * err)
        p.hasLowerLimit p.lowerLimit p.hasUpperLimit p.upperLimit
    else
      clampScanBounds low high p.hasLowerLimit p.lowerLimit p.hasUpperLimit p.upperLimit
  let values : List ℚ := s.params.map (fun q => q.value)
  (nsteps', lh.1, lh.2, values)

/-- MnParameterScan::scan_point from src/src/scan/mod.rs: set the
scanned coordinate and evaluate the user function. -/
def scanPoint (fcn : List ℚ → ℚ) (par : ℕ) (x : ℚ) (values : List ℚ) : ℚ × ℚ :=
  (x, fcn (values.set par x))

/-- MnParameterScan::scan_points from src/src/scan/mod.rs: the serial
in-order evaluation of the nsteps+1 sample points. -/
def scanPoints (fcn : List ℚ → ℚ) (par nsteps : ℕ) (low high : ℚ)
    (values : List ℚ) : List (ℚ × ℚ) :=
  let step : ℚ := (high - low) / (nsteps : ℚ)
  (List.range (nsteps + 1)).map
    (fun i : ℕ => scanPoint fcn par (low + (i : ℚ) * step) values)

/-- MnParameterScan::scan_points_parallel from src/src/scan/mod.rs: the
parallel map over the same fixed index space; rayon's collect on an
indexed parallel iterator places each result at its index, modelled by
building the list positionally from the index function. -/
def scanPointsParallel (fcn : List ℚ → ℚ) (par nsteps : ℕ) (low high : ℚ)
    (values : List ℚ) : List (ℚ × ℚ) :=
  let step : ℚ := (high - low) / (nsteps : ℚ)
  List.ofFn (n := nsteps + 1)
    (fun i => scanPoint fcn par (low + (i.val : ℚ) * step) values)

/-- Rust Iterator::min_by on the function values (total_cmp order),
returning the last of equally minimum elements. -/
def minByFval : List (ℚ × ℚ) → Option (ℚ × ℚ)
  | [] => none
  | x :: xs => some (xs.foldl (fun acc y => if acc.2 < y.2 then acc else y) x)

/-- MnParameterScan::update_best from src/src/scan/mod.rs: fold the best
sample and update fval and the scanned parameter when it improves. -/
def updateBest (s : ParamScan) (par : ℕ) (result : List (ℚ × ℚ)) : ParamScan :=
  match minByFval result with
  | some best =>
      if best.2 < s.fval then
        { params := s.params.mapIdx
            (fun i p => if i = par then { p with value := best.1 } else p),
          fval := best.2 }
      else s
  | none => s

/-- MnParameterScan::scan_serial from src/src/scan/mod.rs: setup, serial
point evaluation, then the best-point update.  Returns the emitted
points and the final scanner state. -/
def scanSerial (fcn : List ℚ → ℚ) (s : ParamScan) (par nsteps : ℕ)
    (low high : ℚ) : List (ℚ × ℚ) × ParamScan :=
  let t := setupScan s par nsteps low high
  let result := scanPoints fcn par t.1 t.2.1 t.2.2.1 t.2.2.2
  (result, updateBest s par result)

/-- MnParameterScan::scan_parallel from src/src/scan/mod.rs: identical
to scan_serial except the points come from the parallel map. -/
def scanParallel (fcn : List ℚ → ℚ) (s : ParamScan) (par nsteps : ℕ)
    (low high : ℚ) : List (ℚ × ℚ) × ParamScan :=
  let t := setupScan s par nsteps low high
  let result := scanPointsParallel fcn par t.1 t.2.1 t.2.2.1 t.2.2.2
  (result, updateBest s par result)

/-- Dot product of two internal-space vectors (nalgebra DVector::dot). -/
def vdot {n : ℕ} (a b : Fin n → ℚ) : ℚ := ∑ i, a i * b i

/-- Matrix-vector product (nalgebra DMatrix * DVector). -/
def matVec {n : ℕ} (V : Fin n → Fin n → ℚ) (x : Fin n → ℚ) : Fin n → ℚ :=
  fun i => ∑ j, V i j * x j

/-- delgam = dx . dg in VariableMetricBuilder::dfp_update
(src/src/migrad/builder.rs line 417). -/
def dfpDelgam {n : ℕ} (dx dg : Fin n → ℚ) : ℚ := vdot dx dg

/-- vg = V * dg in dfp_update (src/src/migrad/builder.rs line 420). -/
def dfpVg {n : ℕ} (V : Fin n → Fin n → ℚ) (dg : Fin n → ℚ) : Fin n → ℚ :=
  matVec V dg

/-- gvg = dg . (V * dg) in dfp_update (src/src/migrad/builder.rs line 421). -/
def dfpGvg {n : ℕ} (V : Fin n → Fin n → ℚ) (dg : Fin n → ℚ) : ℚ :=
  vdot dg (dfpVg V dg)

/-- flnu = dx/delgam - vg/gvg in dfp_update
(src/src/migrad/builder.rs lines 440-443). -/
def dfpFlnu {n : ℕ} (V : Fin n → Fin n → ℚ) (dx dg : Fin n → ℚ) : Fin n → ℚ :=
  fun i => dx i / dfpDelgam dx dg - dfpVg V dg i / dfpGvg V dg

/-- The update matrix v_upd of dfp_update (src/src/migrad/builder.rs
lines 428-449): the rank-2 term, plus the rank-1 correction
gvg * flnu flnu-transposed exactly when delgam > gvg. -/
def dfpVupd {n : ℕ} (V : Fin n → Fin n → ℚ) (dx dg : Fin n → ℚ) :
    Fin n → Fin n → ℚ :=
  fun i j =>
    (dx i * dx j / dfpDelgam dx dg -
      dfpVg V dg i * dfpVg V dg j / dfpGvg V dg) +
    (if dfpGvg V dg < dfpDelgam dx dg then
        dfpGvg V dg * dfpFlnu V dx dg i * dfpFlnu V dx dg j
      else 0)

/-- v_new = v + v_upd (src/src/migrad/builder.rs line 451). -/
def dfpVnew {n : ℕ} (V : Fin n → Fin n → ℚ) (dx dg : Fin n → ℚ) :
    Fin n → Fin n → ℚ :=
  fun i j => V i j + dfpVupd V dx dg i j

/-- sum_upd: entrywise absolute sum of v_upd
(src/src/migrad/builder.rs line 454). -/
def dfpSumUpd {n : ℕ} (V : Fin n → Fin n → ℚ) (dx dg : Fin n → ℚ) : ℚ :=
  ∑ i, ∑ j, |dfpVupd V dx dg i j|

/-- sum_new: entrywise absolute sum of v_new
(src/src/migrad/builder.rs line 455). -/
def dfpSumNew {n : ℕ} (V : Fin n → Fin n → ℚ) (dx dg : Fin n → ℚ) : ℚ :=
  ∑ i, ∑ j, |dfpVnew V dx dg i j|

/-- The new dcovar of dfp_update (src/src/migrad/builder.rs lines
456-460): 0.5*(dcovar + sum_upd/sum_new) guarded by sum_new > 0. -/
def dfpDcovarNew {n : ℕ} (V : Fin n → Fin n → ℚ) (dcovar : ℚ)
    (dx dg : Fin n → ℚ) : ℚ :=
  if 0 < dfpSumNew V dx dg then
    (1/2) * (dcovar + dfpSumUpd V dx dg / dfpSumNew V dx dg)
  else dcovar

/-- VariableMetricBuilder::dfp_update (src/src/migrad/builder.rs lines
402-463): keep (V, dcovar) when delgam <= 0 or gvg <= 0, otherwise
return the updated matrix and dcovar. -/
def dfpUpdate {n : ℕ} (V : Fin n → Fin n → ℚ) (dcovar : ℚ)
    (dx dg : Fin n → ℚ) : (Fin n → Fin n → ℚ) × ℚ :=
  if dfpDelgam dx dg ≤ 0 ∨ dfpGvg V dg ≤ 0 then (V, dcovar)
  else (dfpVnew V dx dg, dfpDcovarNew V dcovar dx dg)

/-- The updated matrix as stated by claim C3:
V + dx dx-transposed / delta - (V dg)(V dg)-transposed / gamma, plus the
rank-1 term gamma u u-transposed, u = dx/delta - V dg/gamma, exactly
when delta > gamma. -/
def dfpClaimMatrix {n : ℕ} (V : Fin n → Fin n → ℚ) (dx dg : Fin n → ℚ) :
    Fin n → Fin n → ℚ :=
  fun i j =>
    V i j + dx i * dx j / dfpDelgam dx dg
      - dfpVg V dg i * dfpVg V dg j / dfpGvg V dg
      + (if dfpGvg V dg < dfpDelgam dx dg then
          dfpGvg V dg * dfpFlnu V dx dg i * dfpFlnu V dx dg j
        else 0)

/-- The new dcovar as stated by claim C3: one half of (old dcovar plus
the absolute sum of the update entries divided by the absolute sum of
the new matrix entries), with no guard. -/
def dfpClaimDcovar {n : ℕ} (V : Fin n → Fin n → ℚ) (dcovar : ℚ)
    (dx dg : Fin n → ℚ) : ℚ :=
  (1/2) * (dcovar +
    (∑ i, ∑ j, |dfpClaimMatrix V dx dg i j - V i j|) /
    (∑ i, ∑ j, |dfpClaimMatrix V dx dg i j|))

/-- epspdf = max(eps2, 1e-6) in make_pos_def (src/src/posdef.rs line 21). -/
noncomputable def epspdf (eps2 : ℝ) : ℝ := max eps2 1e-6

/-- dgmin: the minimum diagonal entry (src/src/posdef.rs lines 24-29).
Matrices are indexed by Fin (n+1), mirroring the non-empty path of the
source (n = 0 returns the input unchanged before this point). -/
noncomputable def dgmin {n : ℕ} (A : Matrix (Fin (n+1)) (Fin (n+1)) ℝ) : ℝ :=
  Finset.univ.inf' Finset.univ_nonempty (fun i => A i i)

/-- The diagonal shift dg = 0.5 + epspdf - dgmin, applied exactly when
dgmin <= 0 (src/src/posdef.rs lines 35-41). -/
noncomputable def diagShift {n : ℕ} (eps2 : ℝ) (A : Matrix (Fin (n+1)) (Fin (n+1)) ℝ) : ℝ :=
  if dgmin A ≤ 0 then 0.5 + epspdf eps2 - dgmin A else 0

/-- err: the possibly diagonal-shifted matrix (src/src/posdef.rs lines
31-41). -/
noncomputable def errMat {n : ℕ} (eps2 : ℝ) (A : Matrix (Fin (n+1)) (Fin (n+1)) ℝ) :
    Matrix (Fin (n+1)) (Fin (n+1)) ℝ :=
  Matrix.of fun i j => A i j + if i = j then diagShift eps2 A else 0

/-- s(i) = 1/sqrt(err(i,i)) when err(i,i) > 0, else 1
(src/src/posdef.rs lines 45-52). -/
noncomputable def sVec {n : ℕ} (eps2 : ℝ) (A : Matrix (Fin (n+1)) (Fin (n+1)) ℝ)
    (i : Fin (n+1)) : ℝ :=
  if 0 < errMat eps2 A i i then 1 / Real.sqrt (errMat eps2 A i i) else 1

/-- The normalised (correlation-like) matrix p(i,j) = err(i,j)*s(i)*s(j)
(src/src/posdef.rs lines 54-59). -/
noncomputable def pMat {n : ℕ} (eps2 : ℝ) (A : Matrix (Fin (n+1)) (Fin (n+1)) ℝ) :
    Matrix (Fin (n+1)) (Fin (n+1)) ℝ :=
  Matrix.of fun i j => errMat eps2 A i j * sVec eps2 A i * sVec eps2 A j

/-- pmin: the minimum eigenvalue produced by the (external) symmetric
eigendecomposition (src/src/posdef.rs lines 65-69). -/
noncomputable def eigMin {n : ℕ} (eig : Fin (n+1) → ℝ) : ℝ :=
  Finset.univ.inf' Finset.univ_nonempty eig

/-- The maximum absolute eigenvalue (src/src/posdef.rs lines 66-74,
before the clip at 1). -/
noncomputable def eigAbsMax {n : ℕ} (eig : Fin (n+1) → ℝ) : ℝ :=
  Finset.univ.sup' Finset.univ_nonempty (fun i => |eig i|)

/-- pmax with the clip pmax.max(1.0) of src/src/posdef.rs line 75. -/
noncomputable def eigAbsMaxClip {n : ℕ} (eig : Fin (n+1) → ℝ) : ℝ :=
  max (eigAbsMax eig) 1

/-- padd = 0.001 * pmax - pmin (src/src/posdef.rs line 87). -/
noncomputable def paddVal {n : ℕ} (eig : Fin (n+1) → ℝ) : ℝ :=
  0.001 * eigAbsMaxClip eig - eigMin eig

/-- make_pos_def from src/src/posdef.rs (non-empty path), parameterised
by the eigendecomposition (eig, Q) that the source obtains from
nalgebra symmetric_eigen of the normalised matrix: either return the
(possibly diagonal-shifted) input, or shift all eigenvalues by padd,
reconstruct and de-normalise. -/
noncomputable def makePosDef {n : ℕ} (A : Matrix (Fin (n+1)) (Fin (n+1)) ℝ)
    (eig : Fin (n+1) → ℝ) (Q : Matrix (Fin (n+1)) (Fin (n+1)) ℝ) (eps2 : ℝ) :
    Matrix (Fin (n+1)) (Fin (n+1)) ℝ × Bool :=
  if epspdf eps2 * eigAbsMaxClip eig < eigMin eig then
    if dgmin A ≤ 0 then (errMat eps2 A, true) else (A, false)
  else
    let pCorr := Q * Matrix.diagonal (fun i => eig i + paddVal eig) * Qᵀ
    (Matrix.of fun i j => pCorr i j / (sVec eps2 A i * sVec eps2 A j), true)

/-- make_pos_def as stated by claim C4: identical control flow, but the
eigenvalue threshold and padd use the maximum absolute eigenvalue
directly (no clip at 1). -/
noncomputable def makePosDefSpec {n : ℕ} (A : Matrix (Fin (n+1)) (Fin (n+1)) ℝ)
    (eig : Fin (n+1) → ℝ) (Q : Matrix (Fin (n+1)) (Fin (n+1)) ℝ) (eps2 : ℝ) :
    Matrix (Fin (n+1)) (Fin (n+1)) ℝ × Bool :=
  if epspdf eps2 * eigAbsMax eig < eigMin eig then
    if dgmin A ≤ 0 then (errMat eps2 A, true) else (A, false)
  else
    let pCorr := Q * Matrix.diagonal (fun i => eig i + (0.001 * eigAbsMax eig - eigMin eig)) * Qᵀ
    (Matrix.of fun i j => pCorr i j / (sVec eps2 A i * sVec eps2 A j), true)

theorem sin_roundtrip (v hi lo eps2 : ℝ) (hlt : lo < hi)
    (hm : |2 * (v - lo) / (hi - lo) - 1| < 1 - 8 * Real.sqrt eps2) :
    sinInt2ext (sinExt2int v hi lo eps2) hi lo = v := by
  have hd : 0 ≤ 8 * Real.sqrt eps2 := by positivity
  set yy : ℝ := 2 * (v - lo) / (hi - lo) - 1 with hyy
  have hnotclamp : ¬ (1 - 8 * Real.sqrt eps2 ≤ |yy|) := not_le.mpr hm
  have habs : |yy| < 1 := lt_of_lt_of_le hm (by linarith)
  have h1 : -1 ≤ yy := le_of_lt (abs_lt.mp habs).1
  have h2 : yy ≤ 1 := le_of_lt (abs_lt.mp habs).2
  have hext : sinExt2int v hi lo eps2 = Real.arcsin yy := by
    simp only [sinExt2int]
    rw [if_neg hnotclamp]
  rw [hext]
  simp only [sinInt2ext]
  rw [Real.sin_arcsin h1 h2]
  have hne : hi - lo ≠ 0 := sub_ne_zero.mpr (ne_of_gt hlt)
  rw [hyy]
  field_simp
  ring

theorem sqrtLow_roundtrip (v lo eps2 : ℝ) (heps : 0 ≤ eps2) (hlt : lo < v)
    (hm : eps2 ≤ (v - lo + 1) * (v - lo + 1) - 1) :
    sqrtLowInt2ext (sqrtLowExt2int v lo eps2) lo = v := by
  set yy : ℝ := v - lo + 1 with hyy
  have hyypos : 0 ≤ yy := by rw [hyy]; linarith
  have hyy2nn : 0 ≤ yy * yy - 1 := le_trans heps hm
  have hext : sqrtLowExt2int v lo eps2 = Real.sqrt (yy * yy - 1) := by
    simp only [sqrtLowExt2int]
    rw [if_neg (not_lt.mpr hm)]
  rw [hext]
  simp only [sqrtLowInt2ext]
  rw [Real.mul_self_sqrt hyy2nn]
  have : yy * yy - 1 + 1 = yy * yy := by ring
  rw [this, Real.sqrt_mul_self hyypos]
  rw [hyy]; ring

theorem sqrtUp_roundtrip (v hi eps2 : ℝ) (heps : 0 ≤ eps2) (hlt : v < hi)
    (hm : eps2 ≤ (hi - v + 1) * (hi - v + 1) - 1) :
    sqrtUpInt2ext (sqrtUpExt2int v hi eps2) hi = v := by
  set yy : ℝ := hi - v + 1 with hyy
  have hyypos : 0 ≤ yy := by rw [hyy]; linarith
  have hyy2nn : 0 ≤ yy * yy - 1 := le_trans heps hm
  have hext : sqrtUpExt2int v hi eps2 = Real.sqrt (yy * yy - 1) := by
    simp only [sqrtUpExt2int]
    rw [if_neg (not_lt.mpr hm)]
  rw [hext]
  simp only [sqrtUpInt2ext]
  rw [Real.mul_self_sqrt hyy2nn]
  have : yy * yy - 1 + 1 = yy * yy := by ring
  rw [this, Real.sqrt_mul_self hyypos]
  rw [hyy]; ring

/-- C1: for every free parameter of any of the four bound kinds and every
external value v strictly inside the bounds with a safe margin,
int2ext (ext2int v) returns v to within 1e-10 * max 1 |v|.  (The
round trip is in fact exact in real arithmetic.) -/
theorem c1_int2ext_ext2int_roundtrip (p : MinuitParam ℝ) (v eps2 : ℝ)
    (heps : 0 ≤ eps2) (hsafe : safeInside p v eps2) :
    |mnInt2ext p (mnExt2int p v eps2) - v| ≤ 1e-10 * max 1 |v| := by
  have hexact : mnInt2ext p (mnExt2int p v eps2) = v := by
    by_cases hb : p.hasLimits = true
    · simp only [safeInside, hb, if_true] at hsafe
      simp only [mnInt2ext, mnExt2int, hb, if_true]
      exact sin_roundtrip v p.upperLimit p.lowerLimit eps2 hsafe.1 hsafe.2
    · simp only [Bool.not_eq_true] at hb
      by_cases hlo : p.hasLowerLimit = true
      · simp only [safeInside, hb, hlo, if_true, Bool.false_eq_true, if_false] at hsafe
        simp only [mnInt2ext, mnExt2int, hb, hlo, if_true, Bool.false_eq_true, if_false]
        exact sqrtLow_roundtrip v p.lowerLimit eps2 heps hsafe.1 hsafe.2
      · simp only [Bool.not_eq_true] at hlo
        by_cases hhi : p.hasUpperLimit = true
        · simp only [safeInside, hb, hlo, hhi, if_true, Bool.false_eq_true, if_false] at hsafe
          simp only [mnInt2ext, mnExt2int, hb, hlo, hhi, if_true, Bool.false_eq_true, if_false]
          exact sqrtUp_roundtrip v p.upperLimit eps2 heps hsafe.1 hsafe.2
        · simp only [Bool.not_eq_true] at hhi
          simp only [mnInt2ext, mnExt2int, hb, hlo, hhi, Bool.false_eq_true, if_false]
  rw [hexact]
  simp only [sub_self, abs_zero]
  positivity

theorem c1_roundtrip_witness :
    (0:ℝ) ≤ 1/256 ∧ safeInside paramC1 1 (1/256) ∧
      |mnInt2ext paramC1 (mnExt2int paramC1 1 (1/256)) - 1| ≤ 1e-10 * max 1 |(1:ℝ)| := by
  have hsq : Real.sqrt (1/256) = 1/16 := by
    rw [show (1/256 : ℝ) = (1/16)^2 by norm_num, Real.sqrt_sq (by norm_num : (0:ℝ) ≤ 1/16)]
  have hsafe : safeInside paramC1 1 (1/256) := by
    simp only [safeInside, paramC1, MinuitParam.hasLimits, Bool.and_self, if_true, hsq]
    norm_num
  exact ⟨by norm_num, hsafe,
    c1_int2ext_ext2int_roundtrip paramC1 1 (1/256) (by norm_num) hsafe⟩

/-- C5: for every MinosError, lower_error is -hesse_err * (1 + lower.value)
when the lower crossing is valid and -hesse_err otherwise, and upper_error
is hesse_err * (1 + upper.value) when the upper crossing is valid and
hesse_err otherwise. -/
theorem c5_minos_error_formulas (me : MinosError) :
    (me.lower.valid = true → me.lowerError = -me.hesseError * (1 + me.lower.value)) ∧
    (me.lower.valid = false → me.lowerError = -me.hesseError) ∧
    (me.upper.valid = true → me.upperError = me.hesseError * (1 + me.upper.value)) ∧
    (me.upper.valid = false → me.upperError = me.hesseError) := by
  refine ⟨fun h => ?_, fun h => ?_, fun h => ?_, fun h => ?_⟩ <;>
    simp [MinosError.lowerError, MinosError.upperError, h]

/-- A concrete MinosError with a valid lower crossing, used as witness input. -/
def minosErrC5 : MinosError :=
  { parameter := 0, hesseError := 2,
    lower := { value := 1/2, nfcn := 3, valid := true, isAtLimit := false,
               isAtMaxFcn := false, newMinimum := false },
    upper := { value := 1/4, nfcn := 4, valid := false, isAtLimit := false,
               isAtMaxFcn := false, newMinimum := false } }

theorem c5_minos_error_witness :
    minosErrC5.lower.valid = true ∧
      minosErrC5.lowerError = -minosErrC5.hesseError * (1 + minosErrC5.lower.value) ∧
      minosErrC5.upper.valid = false ∧ minosErrC5.upperError = minosErrC5.hesseError := by
  refine ⟨by decide, (c5_minos_error_formulas minosErrC5).1 (by decide), by decide,
    (c5_minos_error_formulas minosErrC5).2.2.2 (by decide)⟩

/-- C8 counterexample: creating a parameter through with_limits with
inverted bounds (L = 5 >= U = 3) succeeds and yields a parameter whose
both bounds are set with L >= U, so creation does not fail fast. -/
theorem c8_with_limits_counterexample :
    (withLimits 1 (1/10) 5 3).hasLimits = true ∧
      ¬ ((withLimits 1 (1/10) 5 3).lowerLimit < (withLimits 1 (1/10) 5 3).upperLimit) := by
  constructor
  · rfl
  · simp only [withLimits]
    norm_num

/-- C8 amended: set_limits fails fast exactly when the bounds satisfy
L < U, and a parameter whose limits were set through set_limits always
satisfies L < U; creation through with_limits performs no such check and
accepts any bound pair. -/
theorem c8_set_limits_fail_fast (p : MinuitParam ℚ) (lower upper : ℚ) :
    ((setLimits p lower upper).isSome ↔ lower < upper) ∧
    (∀ q, setLimits p lower upper = some q →
        q.hasLimits = true ∧ q.lowerLimit < q.upperLimit) ∧
    (∀ v e, (withLimits v e lower upper).hasLimits = true) := by
  refine ⟨?_, fun q hq => ?_, fun v e => rfl⟩
  · constructor
    · intro h
      by_contra hlt
      simp [setLimits, hlt] at h
    · intro h
      simp [setLimits, h]
  · by_cases hlt : lower < upper
    · simp only [setLimits, if_pos hlt, Option.some.injEq] at hq
      subst hq
      exact ⟨rfl, hlt⟩
    · simp [setLimits, hlt] at hq

theorem c8_set_limits_witness :
    (0:ℚ) < 1 ∧ (setLimits paramQ 0 1).isSome = true ∧
      (∀ v e : ℚ, (withLimits v e 0 1).hasLimits = true) := by
  refine ⟨by norm_num, ?_, (c8_set_limits_fail_fast paramQ 0 1).2.2⟩
  exact (c8_set_limits_fail_fast paramQ 0 1).1.mpr (by norm_num)

theorem mnFcnRun_add (fcn : List ℚ → ℚ) (trafo : List ℚ → List ℚ) :
    ∀ (entries : List MnFcnEntry) (c : ℕ),
      mnFcnRun fcn trafo c entries = c + entries.length := by
  intro entries
  induction entries with
  | nil => intro c; simp [mnFcnRun]
  | cons e rest ih =>
      intro c
      cases e <;>
        simp [mnFcnRun, mnFcnCall, mnFcnCallTransformed, mnFcnCallNoTrafo, ih] <;>
        omega

/-- C10: every entry point of the counted wrapper increments the single
counter by exactly one, including the variants bypassing the transform,
so after any call sequence num_of_calls equals the number of
user-function invocations made through the wrapper. -/
theorem c10_call_counter (fcn : List ℚ → ℚ) (trafo : List ℚ → List ℚ)
    (entries : List MnFcnEntry) :
    mnFcnRun fcn trafo 0 entries = entries.length ∧
    (∀ c xs, (mnFcnCall fcn trafo c xs).2 = c + 1) ∧
    (∀ c xs, (mnFcnCallTransformed fcn c xs).2 = c + 1) ∧
    (∀ c xs, (mnFcnCallNoTrafo fcn c xs).2 = c + 1) := by
  refine ⟨?_, fun c xs => rfl, fun c xs => rfl, fun c xs => rfl⟩
  simpa using mnFcnRun_add fcn trafo entries 0

theorem migrad_seed_always_valid (fval edm : ℚ) (nfcn : ℕ) :
    (minimumSeedNew
      { params := minimumParametersNew fval, edm := edm, nfcn := nfcn }).isValid = true := rfl

/-- C2: with the seed valid (as it always is, see
migrad_seed_always_valid) and a nonempty builder history (every exit of
the builder loop pushes a state), the returned minimum has
reached_call_limit set exactly when nfcn is at least maxfcn; otherwise
is_above_max_edm is set exactly when the final EDM exceeds
10 * (tolerance * Up * 0.002); and is_valid is false whenever either
flag is set. -/
theorem c2_migrad_outcome_flags (seed : MigradSeed) (statesBuilt : List MinState)
    (nfcn maxfcn : ℕ) (tolerance up : ℚ)
    (hseed : seed.isValid = true) (hne : statesBuilt ≠ []) :
    ((migradMinimize seed statesBuilt nfcn maxfcn tolerance up).reachedCallLimit = true ↔
        maxfcn ≤ nfcn) ∧
    (nfcn < maxfcn →
      ((migradMinimize seed statesBuilt nfcn maxfcn tolerance up).isAboveMaxEdm = true ↔
        10 * (tolerance * up * 0.002) <
          (migradMinimize seed statesBuilt nfcn maxfcn tolerance up).finalState.edm)) ∧
    ((migradMinimize seed statesBuilt nfcn maxfcn tolerance up).isAboveMaxEdm = true ∨
        (migradMinimize seed statesBuilt nfcn maxfcn tolerance up).reachedCallLimit = true →
      (migradMinimize seed statesBuilt nfcn maxfcn tolerance up).isValid = false) := by
  have hlast : ∃ l, statesBuilt.getLast? = some l := by
    cases statesBuilt with
    | nil => exact absurd rfl hne
    | cons a as => exact ⟨(a :: as).getLast (by simp), List.getLast?_eq_getLast _ _⟩
  obtain ⟨l, hl⟩ := hlast
  simp only [migradMinimize, hseed, Bool.not_true, Bool.false_eq_true, if_false, hl]
  by_cases hcall : nfcn ≥ maxfcn
  · simp only [if_pos hcall]
    refine ⟨⟨fun _ => hcall, fun _ => rfl⟩, fun hlt => absurd hcall (not_le.mpr hlt), ?_⟩
    intro _
    simp [FunctionMin.isValid, functionMinimumCallLimit]
  · simp only [if_neg hcall]
    by_cases hedm : l.edm > 10 * (tolerance * up * 0.002)
    · simp only [if_pos hedm]
      refine ⟨⟨fun h => ?_, fun h => absurd h hcall⟩, fun _ => ⟨fun _ => ?_, fun _ => rfl⟩, ?_⟩
      · exact absurd h (by simp [functionMinimumAboveMaxEdm])
      · simpa [functionMinimumAboveMaxEdm, FunctionMin.finalState, hl] using hedm
      · intro _
        simp [FunctionMin.isValid, functionMinimumAboveMaxEdm]
    · simp only [if_neg hedm]
      refine ⟨⟨fun h => ?_, fun h => absurd h hcall⟩, fun _ => ⟨fun h => ?_, fun h => ?_⟩, ?_⟩
      · exact absurd h (by simp [functionMinimumNew])
      · exact absurd h (by simp [functionMinimumNew])
      · refine absurd ?_ hedm
        simpa [functionMinimumNew, FunctionMin.finalState, hl] using h
      · rintro (h | h) <;> exact absurd h (by simp [functionMinimumNew])

theorem c2_migrad_outcome_witness :
    seedC2.isValid = true ∧ ([stateC2] : List MinState) ≠ [] ∧
      ((migradMinimize seedC2 [stateC2] 1 2 1 1).reachedCallLimit = true ↔ 2 ≤ 1) := by
  refine ⟨rfl, by simp, ?_⟩
  exact (c2_migrad_outcome_flags seedC2 [stateC2] 1 2 1 1 rfl (by simp)).1

/-- C6 (code bug): at fmin = 3, Up = 1, f_mid = 4 the source computes the
scale sqrt((fmin + Up)/(f_mid - fmin)) = 2, while the claimed projection
factor sqrt(Up/(f_mid - fmin)) is 1.  The fallback to 1 when f_mid is
numerically equal to fmin does match the source. -/
theorem c6_contour_scale_mismatch :
    contourScale 3 1 4 = 2 ∧ contourScaleSpec 3 1 4 = 1 ∧
      (∀ fmin up : ℝ, contourScale fmin up fmin = 1 ∧ contourScaleSpec fmin up fmin = 1) := by
  refine ⟨?_, ?_, fun fmin up => ?_⟩
  · simp only [contourScale]
    rw [if_pos (by norm_num)]
    rw [show ((3:ℝ) + 1) / ((4:ℝ) - 3) = 2^2 by norm_num]
    exact Real.sqrt_sq (by norm_num)
  · simp only [contourScaleSpec]
    rw [if_pos (by norm_num)]
    rw [show (1:ℝ) / ((4:ℝ) - 3) = 1 by norm_num]
    exact Real.sqrt_one
  · constructor <;> simp [contourScale, contourScaleSpec] <;> norm_num

/-- C7 counterexample: a positive-infinite user function value reaches
the Hesse sag combination unreplaced and makes sag non-finite, and a
negative-infinite value is accepted by the line search comparison as the
new best value; had the claimed sentinel replacement existed, the sag
would have been finite. -/
theorem c7_nonfinite_counterexample :
    (hesseSag FVal.pinf (FVal.fin 1) (FVal.fin 0)).isFinite = false ∧
      (hesseSag (sentinelize (10^30) FVal.pinf) (FVal.fin 1) (FVal.fin 0)).isFinite = true ∧
      (linesearchBest 5 FVal.ninf).1 = FVal.ninf := by
  refine ⟨rfl, ?_, ?_⟩ <;> decide

/-- C7 amended: neither the line search nor Hesse replaces non-finite
user function values; the finiteness class of a value propagates
unchanged into the sag combination, the line search accepts negative
infinity as new best via the IEEE comparison, and drops NaN only because
every IEEE comparison with NaN is false. -/
theorem c7_no_sentinel_replacement (fp : FVal) (b c f0 : ℚ) :
    (hesseSag fp (FVal.fin b) (FVal.fin c)).isFinite = fp.isFinite ∧
      (linesearchBest f0 FVal.ninf).1 = FVal.ninf ∧
      (linesearchBest f0 FVal.nan).1 = FVal.fin f0 := by
  refine ⟨by cases fp <;> rfl, ?_, ?_⟩
  · simp [linesearchBest, FVal.flt]
  · simp [linesearchBest, FVal.flt]

theorem ofFn_val_eq_range_map {α : Type} (n : ℕ) (g : ℕ → α) :
    List.ofFn (n := n) (fun i => g i.val) = (List.range n).map g := by
  apply List.ext_getElem
  · simp
  · intro i h1 h2
    simp only [List.getElem_ofFn, List.getElem_map, List.getElem_range]

theorem scanPointsParallel_eq_scanPoints (fcn : List ℚ → ℚ) (par nsteps : ℕ)
    (low high : ℚ) (values : List ℚ) :
    scanPointsParallel fcn par nsteps low high values =
      scanPoints fcn par nsteps low high values := by
  simp only [scanPointsParallel, scanPoints]
  exact ofFn_val_eq_range_map (nsteps + 1)
    (fun k => scanPoint fcn par (low + (k : ℚ) * ((high - low) / (nsteps : ℚ))) values)

/-- C9: for every (deterministic, pure) user function, parameter index,
step count and range, the parallel 1-D scan returns exactly the same
sequence of (x, F) points as the serial scan and leaves the scanner in
the same final state. -/
theorem c9_scan_parallel_eq_serial (fcn : List ℚ → ℚ) (s : ParamScan)
    (par nsteps : ℕ) (low high : ℚ) :
    scanParallel fcn s par nsteps low high = scanSerial fcn s par nsteps low high := by
  simp only [scanParallel, scanSerial, scanPointsParallel_eq_scanPoints]

theorem quad_outer_div {n : ℕ} (dgv f : Fin n → ℚ) (c : ℚ) :
    ∑ i, ∑ j, dgv i * (f i * f j / c) * dgv j = (∑ i, f i * dgv i)^2 / c := by
  calc ∑ i, ∑ j, dgv i * (f i * f j / c) * dgv j
      = ∑ i, (f i * dgv i) * (∑ j, f j * dgv j) / c := by
        refine Finset.sum_congr rfl fun i _ => ?_
        rw [Finset.mul_sum, Finset.sum_div]
        refine Finset.sum_congr rfl fun j _ => ?_
        ring
    _ = (∑ i, f i * dgv i) * (∑ j, f j * dgv j) / c := by
        rw [← Finset.sum_div, ← Finset.sum_mul]
    _ = (∑ i, f i * dgv i)^2 / c := by rw [sq]

theorem quad_neg_outer_div {n : ℕ} (dgv f : Fin n → ℚ) (c : ℚ) :
    ∑ i, ∑ j, dgv i * (-(f i * f j / c)) * dgv j = -((∑ i, f i * dgv i)^2 / c) := by
  rw [← quad_outer_div dgv f c, ← Finset.sum_neg_distrib]
  refine Finset.sum_congr rfl fun i _ => ?_
  rw [← Finset.sum_neg_distrib]
  refine Finset.sum_congr rfl fun j _ => ?_
  ring

theorem quad_scaled_outer {n : ℕ} (dgv u : Fin n → ℚ) (c : ℚ) :
    ∑ i, ∑ j, dgv i * (c * (u i * u j)) * dgv j = c * (∑ i, u i * dgv i)^2 := by
  calc ∑ i, ∑ j, dgv i * (c * (u i * u j)) * dgv j
      = ∑ i, c * ((u i * dgv i) * (∑ j, u j * dgv j)) := by
        refine Finset.sum_congr rfl fun i _ => ?_
        rw [Finset.mul_sum, Finset.mul_sum]
        refine Finset.sum_congr rfl fun j _ => ?_
        ring
    _ = c * ((∑ i, u i * dgv i) * (∑ j, u j * dgv j)) := by
        rw [← Finset.mul_sum, ← Finset.sum_mul]
    _ = c * (∑ i, u i * dgv i)^2 := by rw [sq]

theorem quad_matvec {n : ℕ} (dgv : Fin n → ℚ) (V : Fin n → Fin n → ℚ) :
    ∑ i, ∑ j, dgv i * V i j * dgv j = vdot dgv (matVec V dgv) := by
  simp only [vdot, matVec]
  refine Finset.sum_congr rfl fun i _ => ?_
  rw [Finset.mul_sum]
  refine Finset.sum_congr rfl fun j _ => ?_
  ring

theorem dfp_flnu_dg_zero {n : ℕ} (V : Fin n → Fin n → ℚ) (dx dg : Fin n → ℚ)
    (h1 : 0 < dfpDelgam dx dg) (h2 : 0 < dfpGvg V dg) :
    ∑ i, dfpFlnu V dx dg i * dg i = 0 := by
  have hd : dfpDelgam dx dg ≠ 0 := ne_of_gt h1
  have hg : dfpGvg V dg ≠ 0 := ne_of_gt h2
  have hsplit : ∑ i, dfpFlnu V dx dg i * dg i =
      (∑ i, dx i * dg i) / dfpDelgam dx dg -
        (∑ i, dg i * dfpVg V dg i) / dfpGvg V dg := by
    rw [Finset.sum_div, Finset.sum_div, ← Finset.sum_sub_distrib]
    refine Finset.sum_congr rfl fun i _ => ?_
    simp only [dfpFlnu]
    ring
  rw [hsplit]
  have hdx : (∑ i, dx i * dg i) = dfpDelgam dx dg := rfl
  have hvg : (∑ i, dg i * dfpVg V dg i) = dfpGvg V dg := rfl
  rw [hdx, hvg, div_self hd, div_self hg, sub_self]

theorem dfp_quad_claim {n : ℕ} (V : Fin n → Fin n → ℚ) (dx dg : Fin n → ℚ)
    (h1 : 0 < dfpDelgam dx dg) (h2 : 0 < dfpGvg V dg) :
    ∑ i, ∑ j, dg i * dfpClaimMatrix V dx dg i j * dg j = dfpDelgam dx dg := by
  have hd : dfpDelgam dx dg ≠ 0 := ne_of_gt h1
  have hg : dfpGvg V dg ≠ 0 := ne_of_gt h2
  have hentry : ∀ i j, dg i * dfpClaimMatrix V dx dg i j * dg j =
      dg i * V i j * dg j +
      (dg i * (dx i * dx j / dfpDelgam dx dg) * dg j +
       (dg i * (-(dfpVg V dg i * dfpVg V dg j / dfpGvg V dg)) * dg j +
        dg i * ((if dfpGvg V dg < dfpDelgam dx dg then dfpGvg V dg else 0) *
            (dfpFlnu V dx dg i * dfpFlnu V dx dg j)) * dg j)) := by
    intro i j
    simp only [dfpClaimMatrix]
    by_cases hif : dfpGvg V dg < dfpDelgam dx dg
    · rw [if_pos hif, if_pos hif]; ring
    · rw [if_neg hif, if_neg hif]; ring
  calc ∑ i, ∑ j, dg i * dfpClaimMatrix V dx dg i j * dg j
      = ∑ i, ∑ j, (dg i * V i j * dg j +
          (dg i * (dx i * dx j / dfpDelgam dx dg) * dg j +
           (dg i * (-(dfpVg V dg i * dfpVg V dg j / dfpGvg V dg)) * dg j +
            dg i * ((if dfpGvg V dg < dfpDelgam dx dg then dfpGvg V dg else 0) *
                (dfpFlnu V dx dg i * dfpFlnu V dx dg j)) * dg j))) :=
        Finset.sum_congr rfl fun i _ => Finset.sum_congr rfl fun j _ => hentry i j
    _ = (∑ i, ∑ j, dg i * V i j * dg j) +
        ((∑ i, ∑ j, dg i * (dx i * dx j / dfpDelgam dx dg) * dg j) +
         ((∑ i, ∑ j, dg i * (-(dfpVg V dg i * dfpVg V dg j / dfpGvg V dg)) * dg j) +
          (∑ i, ∑ j, dg i *
            ((if dfpGvg V dg < dfpDelgam dx dg then dfpGvg V dg else 0) *
              (dfpFlnu V dx dg i * dfpFlnu V dx dg j)) * dg j))) := by
        simp only [Finset.sum_add_distrib]
    _ = dfpDelgam dx dg := by
        rw [quad_matvec, quad_outer_div, quad_neg_outer_div, quad_scaled_outer]
        have hdx : (∑ i, dx i * dg i) = dfpDelgam dx dg := rfl
        have hvg : (∑ i, dfpVg V dg i * dg i) = dfpGvg V dg :=
          Finset.sum_congr rfl fun i _ => mul_comm _ _
        rw [hdx, hvg, dfp_flnu_dg_zero V dx dg h1 h2]
        have hgq : vdot dg (matVec V dg) = dfpGvg V dg := rfl
        rw [hgq]
        field_simp
        ring

theorem dfp_sumNew_pos {n : ℕ} (V : Fin n → Fin n → ℚ) (dx dg : Fin n → ℚ)
    (h1 : 0 < dfpDelgam dx dg) (h2 : 0 < dfpGvg V dg) :
    0 < ∑ i, ∑ j, |dfpClaimMatrix V dx dg i j| := by
  by_contra hle
  push_neg at hle
  have hnn : (0:ℚ) ≤ ∑ i, ∑ j, |dfpClaimMatrix V dx dg i j| :=
    Finset.sum_nonneg fun i _ => Finset.sum_nonneg fun j _ => abs_nonneg _
  have hzero : ∑ i, ∑ j, |dfpClaimMatrix V dx dg i j| = 0 := le_antisymm hle hnn
  have hrow := (Finset.sum_eq_zero_iff_of_nonneg
    (fun i _ => Finset.sum_nonneg fun j _ => abs_nonneg _)).mp hzero
  have hentry : ∀ i j, dfpClaimMatrix V dx dg i j = 0 := by
    intro i j
    have h := (Finset.sum_eq_zero_iff_of_nonneg
      (fun j _ => abs_nonneg _)).mp (hrow i (Finset.mem_univ i)) j (Finset.mem_univ j)
    exact abs_eq_zero.mp h
  have hquad := dfp_quad_claim V dx dg h1 h2
  rw [Finset.sum_eq_zero (fun i _ => Finset.sum_eq_zero fun j _ => by
    rw [hentry i j]; ring)] at hquad
  exact absurd hquad.symm (ne_of_gt h1)

/-- C3: the DFP update keeps (V, dcovar) when delta <= 0 or gamma <= 0;
otherwise it returns exactly the claimed rank-2 matrix with the rank-1
term added exactly when delta > gamma, and the new dcovar equals
0.5*(old dcovar + sum |update| / sum |new matrix|) unconditionally (the
sum_new > 0 guard of the source is always satisfied there, because the
quadratic form of the new matrix at dg equals delta > 0). -/
theorem c3_dfp_update_characterisation {n : ℕ} (V : Fin n → Fin n → ℚ)
    (dcovar : ℚ) (dx dg : Fin n → ℚ) :
    (dfpDelgam dx dg ≤ 0 ∨ dfpGvg V dg ≤ 0 →
        dfpUpdate V dcovar dx dg = (V, dcovar)) ∧
    (0 < dfpDelgam dx dg → 0 < dfpGvg V dg →
        dfpUpdate V dcovar dx dg =
          (dfpClaimMatrix V dx dg, dfpClaimDcovar V dcovar dx dg)) := by
  constructor
  · intro h
    simp only [dfpUpdate, if_pos h]
  · intro h1 h2
    have hcond : ¬ (dfpDelgam dx dg ≤ 0 ∨ dfpGvg V dg ≤ 0) := by
      push_neg
      exact ⟨h1, h2⟩
    simp only [dfpUpdate, if_neg hcond]
    have hmat : dfpVnew V dx dg = dfpClaimMatrix V dx dg := by
      funext i j
      simp only [dfpVnew, dfpVupd, dfpClaimMatrix]
      ring
    have hupd : ∀ i j, dfpVupd V dx dg i j = dfpClaimMatrix V dx dg i j - V i j := by
      intro i j
      simp only [dfpVupd, dfpClaimMatrix]
      ring
    refine Prod.ext hmat ?_
    simp only [dfpDcovarNew, dfpSumNew, dfpSumUpd, hmat]
    rw [if_pos (dfp_sumNew_pos V dx dg h1 h2)]
    simp only [dfpClaimDcovar]
    have hsum : (∑ i, ∑ j, |dfpVupd V dx dg i j|) =
        ∑ i, ∑ j, |dfpClaimMatrix V dx dg i j - V i j| :=
      Finset.sum_congr rfl fun i _ => Finset.sum_congr rfl fun j _ => by rw [hupd i j]
    rw [hsum]

/-- Concrete 1-dimensional inputs for the C3 witness. -/
def vC3 : Fin 1 → Fin 1 → ℚ := fun _ _ => 1

/-- Concrete displacement vector for the C3 witness. -/
def dxC3 : Fin 1 → ℚ := fun _ => 1

/-- Concrete gradient-change vector for the C3 witness. -/
def dgC3 : Fin 1 → ℚ := fun _ => 1

theorem c3_dfp_update_witness :
    (0:ℚ) < dfpDelgam dxC3 dgC3 ∧ (0:ℚ) < dfpGvg vC3 dgC3 ∧
      dfpUpdate vC3 0 dxC3 dgC3 = (dfpClaimMatrix vC3 dxC3 dgC3, dfpClaimDcovar vC3 0 dxC3 dgC3) := by
  have hdel : (0:ℚ) < dfpDelgam dxC3 dgC3 := by
    norm_num [dfpDelgam, vdot, dxC3, dgC3, Fin.sum_univ_one]
  have hgvg : (0:ℚ) < dfpGvg vC3 dgC3 := by
    norm_num [dfpGvg, dfpVg, vdot, matVec, vC3, dgC3, Fin.sum_univ_one]
  exact ⟨hdel, hgvg, (c3_dfp_update_characterisation vC3 0 dxC3 dgC3).2 hdel hgvg⟩

theorem epspdf_pos (eps2 : ℝ) : 0 < epspdf eps2 :=
  lt_of_lt_of_le (by norm_num) (le_max_right _ _)

theorem errMat_diag_pos {n : ℕ} (eps2 : ℝ) (A : Matrix (Fin (n+1)) (Fin (n+1)) ℝ)
    (i : Fin (n+1)) : 0 < errMat eps2 A i i := by
  have hle : dgmin A ≤ A i i := Finset.inf'_le _ (Finset.mem_univ i)
  have hp := epspdf_pos eps2
  have hee : errMat eps2 A i i = A i i + diagShift eps2 A := by
    simp [errMat]
  rw [hee]
  simp only [diagShift]
  by_cases hdg : dgmin A ≤ 0
  · rw [if_pos hdg]; linarith
  · rw [if_neg hdg]; push_neg at hdg; linarith

theorem pMat_diag_one {n : ℕ} (eps2 : ℝ) (A : Matrix (Fin (n+1)) (Fin (n+1)) ℝ)
    (i : Fin (n+1)) : pMat eps2 A i i = 1 := by
  have h := errMat_diag_pos eps2 A i
  have hs : Real.sqrt (errMat eps2 A i i) ≠ 0 := by
    rw [Real.sqrt_ne_zero' ]
    exact h
  simp only [pMat, Matrix.of_apply, sVec, if_pos h]
  field_simp

theorem sum_eig_of_decomp {n : ℕ} (eps2 : ℝ) (A : Matrix (Fin (n+1)) (Fin (n+1)) ℝ)
    (eig : Fin (n+1) → ℝ) (Q : Matrix (Fin (n+1)) (Fin (n+1)) ℝ)
    (hq : Qᵀ * Q = 1) (hdecomp : pMat eps2 A = Q * Matrix.diagonal eig * Qᵀ) :
    ∑ i, eig i = ((n + 1 : ℕ) : ℝ) := by
  have h1 : Matrix.trace (pMat eps2 A) = ((n + 1 : ℕ) : ℝ) := by
    simp only [Matrix.trace, Matrix.diag_apply]
    rw [Finset.sum_congr rfl (fun i _ => pMat_diag_one eps2 A i)]
    simp [Finset.card_univ]
  have h2 : Matrix.trace (Q * Matrix.diagonal eig * Qᵀ) = ∑ i, eig i := by
    rw [Matrix.trace_mul_comm, ← Matrix.mul_assoc, hq, Matrix.one_mul,
      Matrix.trace_diagonal]
  rw [hdecomp, h2] at h1
  exact h1

theorem one_le_eigAbsMax {n : ℕ} (eps2 : ℝ) (A : Matrix (Fin (n+1)) (Fin (n+1)) ℝ)
    (eig : Fin (n+1) → ℝ) (Q : Matrix (Fin (n+1)) (Fin (n+1)) ℝ)
    (hq : Qᵀ * Q = 1) (hdecomp : pMat eps2 A = Q * Matrix.diagonal eig * Qᵀ) :
    1 ≤ eigAbsMax eig := by
  have hsum := sum_eig_of_decomp eps2 A eig Q hq hdecomp
  have hex : ∃ i, 1 ≤ eig i := by
    by_contra hcon
    push_neg at hcon
    have hlt : ∑ i, eig i < ∑ _i : Fin (n+1), (1:ℝ) :=
      Finset.sum_lt_sum_of_nonempty Finset.univ_nonempty (fun i _ => hcon i)
    rw [hsum] at hlt
    simp [Finset.card_univ] at hlt
  obtain ⟨i, hi⟩ := hex
  calc (1:ℝ) ≤ eig i := hi
    _ ≤ |eig i| := le_abs_self _
    _ ≤ eigAbsMax eig := by
        unfold eigAbsMax
        exact Finset.le_sup' (fun j => |eig j|) (Finset.mem_univ i)

/-- C4: the diagonal of err is shifted by 0.5 + epspdf - min diag exactly
when the minimum diagonal is nonpositive, and make_pos_def coincides
with the behaviour stated by the claim (threshold epspdf * max abs
eigenvalue, eigenvalue shift padd = 0.001 * max abs eigenvalue - min
eigenvalue): the clip pmax.max(1.0) of the source is inert because the
normalised matrix has unit diagonal, hence eigenvalue sum n+1, hence a
maximum absolute eigenvalue of at least 1. -/
theorem c4_make_pos_def_matches_spec {n : ℕ} (A : Matrix (Fin (n+1)) (Fin (n+1)) ℝ)
    (eig : Fin (n+1) → ℝ) (Q : Matrix (Fin (n+1)) (Fin (n+1)) ℝ) (eps2 : ℝ)
    (hq : Qᵀ * Q = 1) (hdecomp : pMat eps2 A = Q * Matrix.diagonal eig * Qᵀ) :
    (∀ i j, errMat eps2 A i j =
        A i j + if i = j ∧ dgmin A ≤ 0 then 0.5 + epspdf eps2 - dgmin A else 0) ∧
    makePosDef A eig Q eps2 = makePosDefSpec A eig Q eps2 := by
  constructor
  · intro i j
    simp only [errMat, Matrix.of_apply, diagShift]
    by_cases hij : i = j
    · by_cases hdg : dgmin A ≤ 0 <;> simp [hij, hdg]
    · simp [hij]
  · have hclip : eigAbsMaxClip eig = eigAbsMax eig :=
      max_eq_left (one_le_eigAbsMax eps2 A eig Q hq hdecomp)
    simp only [makePosDef, makePosDefSpec, paddVal, hclip]

/-- Concrete 1x1 input matrix for the C4 witness. -/
noncomputable def aC4 : Matrix (Fin 1) (Fin 1) ℝ := Matrix.of fun _ _ => 1

/-- Eigenvalues of the normalised matrix of aC4 (it is the 1x1 identity). -/
noncomputable def eigC4 : Fin 1 → ℝ := fun _ => 1

/-- Eigenvector matrix for the C4 witness: the identity. -/
noncomputable def qC4 : Matrix (Fin 1) (Fin 1) ℝ := 1

theorem c4_make_pos_def_witness :
    (qC4ᵀ * qC4 = 1) ∧ pMat 0 aC4 = qC4 * Matrix.diagonal eigC4 * qC4ᵀ ∧
      makePosDef aC4 eigC4 qC4 0 = makePosDefSpec aC4 eigC4 qC4 0 := by
  have hq : qC4ᵀ * qC4 = 1 := by
    simp [qC4]
  have hone : ∀ a b : Fin 1, a = b := by
    intro a b
    have h1 := a.isLt
    have h2 := b.isLt
    exact Fin.ext (by omega)
  have hdg : dgmin aC4 = 1 := by
    simp [dgmin, aC4, Finset.univ_unique]
  have hshift : diagShift 0 aC4 = 0 := by
    simp only [diagShift, hdg]
    norm_num
  have herr : ∀ i j : Fin 1, errMat 0 aC4 i j = 1 := by
    intro i j
    have hij : i = j := hone i j
    subst hij
    have he : errMat 0 aC4 i i = aC4 i i + diagShift 0 aC4 := by
      simp [errMat]
    rw [he, hshift]
    simp [aC4]
  have hdec : pMat 0 aC4 = qC4 * Matrix.diagonal eigC4 * qC4ᵀ := by
    ext i j
    have hij : i = j := hone i j
    subst hij
    have hp : pMat 0 aC4 i i = errMat 0 aC4 i i * sVec 0 aC4 i * sVec 0 aC4 i := by
      simp [pMat]
    have hsv : sVec 0 aC4 i = 1 := by
      simp [sVec, herr, Real.sqrt_one]
    rw [hp, hsv, herr i i]
    simp [qC4, eigC4, Matrix.diagonal_apply_eq]
  exact ⟨hq, hdec, (c4_make_pos_def_matches_spec aC4 eigC4 qC4 0 hq hdec).2⟩

end Minuit
